/-
Verification of the luxonis-train model graph execution engine.

This file gives a shallow embedding, in Lean 4, of the core algorithms of the
repository:

* the graph validation logic of `ModelConfig.check_graph`
  (src/luxonis_train/utils/config.py),
* the forward-pass cache / liveness-eviction loop of `LuxonisModel.forward`
  (src/luxonis_train/models/luxonis_model.py),
* the loss reduction of `LuxonisModel.process_losses`,
* the metric normalization of `LuxonisModel.compute_metrics`,
* the best-effort checkpoint restoration of `LuxonisModel.load_checkpoint`,
* the output enumeration of `LuxonisModel.export_onnx`,
* the frozen-node schedule construction of `LuxonisModel.__init__`.

Python `float` values are modelled as exact rationals (`ℚ`); tensors carry a
rational scalar payload plus the `requires_grad` autograd flag, which is all
the verified properties inspect.  Python dictionaries are modelled as
association lists in insertion order; `dict` key uniqueness is modelled by
`List.Nodup` hypotheses where it matters.

The helper functions `traverse_graph` and `is_acyclic` live in
`luxonis_train/utils/general.py`, which is not part of the sources given;
they are modelled from the spec (see their doc comments).
-/
import Mathlib

namespace LuxonisTrain

/-! ## Tensors

A tensor is modelled by the scalar payload the verified code inspects plus the
`requires_grad` flag tracking attachment to the autograd graph. -/

structure Tsr where
  val : ℚ
  requiresGrad : Bool
deriving DecidableEq, Repr

/-- Models `tensor.detach().cpu()`: same value, detached from autograd. -/
def Tsr.detach (t : Tsr) : Tsr := ⟨t.val, false⟩

/-! ## Configuration data model (src/luxonis_train/utils/config.py) -/

/-- Models the Python annotation `unfreeze_after: int | float | None`. -/
inductive UnfreezeAfter where
  | null : UnfreezeAfter
  | int : Int → UnfreezeAfter
  | float : ℚ → UnfreezeAfter
deriving DecidableEq, Repr

/-- `FreezingConfig` from config.py. -/
structure FreezingConfig where
  active : Bool := false
  unfreeze_after : UnfreezeAfter := .null
deriving DecidableEq, Repr

/-- `ModelNodeConfig` from config.py (the `params` field carries opaque
type-specific arguments and is not modelled; the Python field `alias` is
called `alias'` because `alias` is reserved in Lean). -/
structure ModelNodeConfig where
  name : String
  alias' : Option String := none
  inputs : List String := []
  loader_inputs : List String := []
  freezing : FreezingConfig := {}
deriving DecidableEq, Repr

/-- The `node.alias or node.name` idiom used throughout the source. -/
def aliasOrName (n : ModelNodeConfig) : String := n.alias'.getD n.name

/-- `AttachedModuleConfig` from config.py (again without `params`). -/
structure AttachedModuleConfig where
  name : String
  attached_to : String
  alias' : Option String := none
deriving DecidableEq, Repr

/-- `LossModuleConfig` from config.py: the weight field defaults to `1.0`. -/
structure LossModuleConfig extends AttachedModuleConfig where
  weight : ℚ := 1
deriving DecidableEq, Repr

/-! ## Frozen-node schedule (LuxonisModel.__init__, luxonis_model.py 140-155)

For every node whose freeze spec is active the constructor records
`(alias-or-name, unfreeze_after)` where `unfreeze_after` is resolved against
`cfg.trainer.epochs`. -/

/-- Python `int(q)` truncates toward zero. -/
def ratTrunc (q : ℚ) : Int := Int.tdiv q.num q.den

/-- The `if/elif/else` ladder of luxonis_model.py lines 149-154, resolving the
configured `unfreeze_after` against the total number of epochs. -/
def resolveUnfreezeAfter (epochs : Int) : UnfreezeAfter → Int
  | .null => epochs
  | .int i => i
  | .float q => ratTrunc (q * epochs)

/-- The loop of `LuxonisModel.__init__` building the `frozen_nodes` list
(luxonis_model.py lines 143-155, restricted to the freezing logic). -/
def buildFrozenNodes (nodes : List ModelNodeConfig) (epochs : Int) :
    List (String × Int) :=
  nodes.foldl
    (fun acc n =>
      if n.freezing.active then
        acc ++ [(aliasOrName n, resolveUnfreezeAfter epochs n.freezing.unfreeze_after)]
      else acc)
    []

/-! ## ONNX export output enumeration (LuxonisModel.export_onnx,
luxonis_model.py lines 435-457)

The code builds `output_order = sorted([(node_name, output_name, i) ...])`
over all output tensors and derives the default output names
`f"{node_name}/{output_name}/{i}"` in that same order.  Only the slot
structure of the output packets matters for the enumeration, so an output
mapping is modelled as node name → list of (slot name, number of tensors). -/

abbrev OutputsMap := List (String × List (String × Nat))

/-- Lexicographic order on (node name, output-slot name, tensor index), the
order Python's `sorted` uses on those tuples. -/
def lexLe (a b : String × String × Nat) : Prop :=
  a.1 < b.1 ∨ (a.1 = b.1 ∧ (a.2.1 < b.2.1 ∨ (a.2.1 = b.2.1 ∧ a.2.2 ≤ b.2.2)))

instance : DecidableRel lexLe := fun a b => by
  unfold lexLe; exact inferInstance

instance : IsTotal (String × String × Nat) lexLe := by
  constructor
  intro a b
  rcases lt_trichotomy a.1 b.1 with h | h | h
  · exact Or.inl (Or.inl h)
  · rcases lt_trichotomy a.2.1 b.2.1 with h2 | h2 | h2
    · exact Or.inl (Or.inr ⟨h, Or.inl h2⟩)
    · rcases Nat.le_total a.2.2 b.2.2 with h3 | h3
      · exact Or.inl (Or.inr ⟨h, Or.inr ⟨h2, h3⟩⟩)
      · exact Or.inr (Or.inr ⟨h.symm, Or.inr ⟨h2.symm, h3⟩⟩)
    · exact Or.inr (Or.inr ⟨h.symm, Or.inl h2⟩)
  · exact Or.inr (Or.inl h)

instance : IsTrans (String × String × Nat) lexLe := by
  constructor
  intro a b c hab hbc
  rcases hab with h1 | ⟨e1, h1⟩
  · rcases hbc with h2 | ⟨e2, _⟩
    · exact Or.inl (h1.trans h2)
    · exact Or.inl (lt_of_lt_of_le h1 (le_of_eq e2))
  · rcases hbc with h2 | ⟨e2, h2⟩
    · exact Or.inl (lt_of_le_of_lt (le_of_eq e1) h2)
    · refine Or.inr ⟨e1.trans e2, ?_⟩
      rcases h1 with h1 | ⟨f1, h1⟩
      · rcases h2 with h2 | ⟨f2, _⟩
        · exact Or.inl (h1.trans h2)
        · exact Or.inl (lt_of_lt_of_le h1 (le_of_eq f2))
      · rcases h2 with h2 | ⟨f2, h2⟩
        · exact Or.inl (lt_of_le_of_lt (le_of_eq f1) h2)
        · exact Or.inr ⟨f1.trans f2, h1.trans h2⟩

/-- All (node name, slot name, tensor index) triples of an output mapping, in
packet iteration order — the list comprehension of luxonis_model.py 437-442. -/
def allOutputTriples (outs : OutputsMap) : List (String × String × Nat) :=
  outs.flatMap fun p =>
    p.2.flatMap fun q =>
      (List.range q.2).map fun i => (p.1, q.1, i)

/-- `output_order = sorted([...])` (luxonis_model.py 436-443); Python's
`sorted` is modelled by insertion sort under the same lexicographic order. -/
def outputOrder (outs : OutputsMap) : List (String × String × Nat) :=
  List.insertionSort lexLe (allOutputTriples outs)

/-- One default output name, `f"{node_name}/{output_name}/{i}"`. -/
def outputNameOf (t : String × String × Nat) : String :=
  t.1 ++ "/" ++ t.2.1 ++ "/" ++ toString t.2.2

/-- The default output names of luxonis_model.py 454-457. -/
def defaultOutputNames (outs : OutputsMap) : List String :=
  (outputOrder outs).map outputNameOf

/-! ## The model graph

`LuxonisModel.graph` is a Python dict from node name (alias-or-name) to the
ordered list of predecessor names.  We model dicts as association lists in
insertion order. -/

abbrev Graph := List (String × List String)

/-- The predecessor list of a node, `graph[name]` with a `[]` default. -/
def depsOf (g : Graph) (n : String) : List String := (g.lookup n).getD []

/-- Python dict assignment `d[k] = v`: an existing key keeps its position and
gets the new value, a new key is appended. -/
def dictInsert (g : Graph) (k : String) (v : List String) : Graph :=
  if g.any (fun p => p.1 == k) then
    g.map (fun p => if p.1 == k then (k, v) else p)
  else g ++ [(k, v)]

/-- The dict comprehension
`{node.alias or node.name: node.inputs for node in self.nodes}`
of `ModelConfig.check_graph` (config.py line 86). -/
def toGraph (nodes : List ModelNodeConfig) : Graph :=
  nodes.foldl (fun g n => dictInsert g (aliasOrName n) n.inputs) []

/-! ### Topological traversal

Modelled from the spec: `traverse_graph` and `is_acyclic` are defined in
`luxonis_train/utils/general.py`, which is not among the given sources.  Per
spec §4.3/§4.4 the traversal is "a topological order that guarantees every
predecessor of a node is visited before the node itself (ties broken by
declaration order)", realised here as Kahn's algorithm that at every step
picks the first node in declaration order all of whose predecessors are
already processed (predecessor names that are not graph keys do not block).
Each traversal step yields the node's name, its predecessor list and the set
of still-PENDING nodes (per spec §4.4 the node just computed is COMPUTED, no
longer PENDING). -/

/-- A node is ready when each of its predecessors is processed or is not a
graph key. -/
def nodeReady (g : Graph) (processed : List String) (deps : List String) : Bool :=
  deps.all fun d => decide (d ∈ processed) || (g.lookup d).isNone

/-- First unprocessed ready node, in declaration order. -/
def pickNext (g : Graph) (processed : List String) : Option (String × List String) :=
  (g.filter fun p => decide (p.1 ∉ processed)).find? fun p => nodeReady g processed p.2

/-- One traversal step: node name, its predecessor list, the names still
unprocessed after it. -/
structure TravStep where
  name : String
  deps : List String
  unprocessed : List String
deriving DecidableEq, Repr

/-- Kahn's algorithm with explicit fuel (the graph size bounds the number of
steps). -/
def kahnAux (g : Graph) : Nat → List String → List TravStep
  | 0, _ => []
  | fuel + 1, processed =>
    match pickNext g processed with
    | none => []
    | some p =>
      let processed' := processed ++ [p.1]
      let unproc := (g.filter fun q => decide (q.1 ∉ processed')).map fun q => q.1
      ⟨p.1, p.2, unproc⟩ :: kahnAux g fuel processed'

/-- Modelled from the spec: the topological traversal used by
`_initiate_nodes` and `forward` (spec §4.3/§4.4). -/
def traverse_graph (g : Graph) : List TravStep := kahnAux g g.length []

/-- The node visitation order of the traversal. -/
def kahnOrder (g : Graph) : List String := (traverse_graph g).map fun s => s.name

/-- Modelled from the spec: `is_acyclic` (spec §4.1, "checks a
node-dependency mapping for acyclicity"): the graph is acyclic exactly when
the topological traversal covers every node. -/
def is_acyclic (g : Graph) : Bool := (traverse_graph g).length == g.length

/-- An explicit directed cycle in the graph: a nonempty list of node names
where every element's cyclic successor is one of its predecessors in the
graph.  (Every element is forced to be a graph key because it owns a graph
entry.) -/
def IsCycle (g : Graph) (c : List String) : Prop :=
  c ≠ [] ∧ ∀ i : Fin c.length,
    ∃ p ∈ g, p.1 = c.get i ∧
      c.get ⟨(i.val + 1) % c.length, Nat.mod_lt _ i.pos⟩ ∈ p.2

/-! ### Graph validation (`ModelConfig.check_graph`, config.py lines 84-99) -/

/-- The default-output derivation of config.py lines 90-96: collect every
name referenced as an input anywhere, then keep (in declaration order) the
nodes whose alias-or-name is not referenced. -/
def derivedOutputs (nodes : List ModelNodeConfig) : List String :=
  let inputs := nodes.flatMap fun n => n.inputs
  (nodes.filter fun n => decide (aliasOrName n ∉ inputs)).map aliasOrName

/-- The output list `check_graph` settles on: the declared outputs if any,
otherwise the derived ones. -/
def finalOutputs (nodes : List ModelNodeConfig) (outputs : List String) : List String :=
  if outputs.isEmpty then derivedOutputs nodes else outputs

/-- `ModelConfig.check_graph` (config.py lines 84-99).  Raising pydantic
`ValueError` (surfaced as a configuration error) is modelled as
`Except.error`. -/
def check_graph (nodes : List ModelNodeConfig) (outputs : List String) :
    Except String (List String) :=
  if !is_acyclic (toGraph nodes) then
    .error "Model graph is not acyclic."
  else
    let outs := finalOutputs nodes outputs
    if !nodes.isEmpty && outs.isEmpty then
      .error "No outputs specified."
    else
      .ok outs

/-- The spec's wording of default-output derivation (§4.1): a node is an
output when it "is not referenced as a predecessor by any other node"; nodes
are identified by alias-or-name (well-defined under the unique-name rule). -/
def specOutputs (nodes : List ModelNodeConfig) : List String :=
  (nodes.filter fun n =>
    nodes.all fun m =>
      (aliasOrName m == aliasOrName n) || decide (aliasOrName n ∉ m.inputs)).map
    aliasOrName

/-! ## The forward pass cache (`LuxonisModel.forward`,
luxonis_model.py lines 300-376)

The forward pass keeps a Computed Cache `computed`, a dict from name to
Packet.  The claims under verification only concern which KEYS the cache
holds, so the cache is modelled as the list of its keys in insertion order.
Keys are either node names or the pseudo input keys `f"__{name}_input__"`
pre-seeded for the input (predecessor-less) nodes. -/

/-- The pseudo input key `f"__{node_name}_input__"`. -/
def pseudoKey (n : String) : String := "__" ++ n ++ "_input__"

/-- The cache seeded before traversal (luxonis_model.py 314-317): one pseudo
input entry per predecessor-less node, in declaration order. -/
def initialCache (g : Graph) : List String :=
  (g.filter fun p => p.2.isEmpty).map fun p => pseudoKey p.1

/-- The eviction predicate of the loop at luxonis_model.py lines 360-370:
an entry is KEPT when it is a declared output, or the just-computed node was
an input node and the entry is not among that node's own input names, or some
still-unprocessed node lists it as a predecessor; otherwise it is deleted. -/
def evictionKeep (g : Graph) (outputs : List String) (isInputNode : Bool)
    (inputNames unprocessed : List String) (k : String) : Bool :=
  decide (k ∈ outputs)
    || (isInputNode && decide (k ∉ inputNames))
    || unprocessed.any fun m => decide (k ∈ depsOf g m)

/-- One iteration of the forward loop (luxonis_model.py 321-370), restricted
to cache keys: compute the node (adding its key), then run the liveness
eviction scan over all cache entries. -/
def forwardStep (g : Graph) (outputs : List String) (cache : List String)
    (s : TravStep) : List String :=
  let isInputNode := s.deps.isEmpty
  let inputNames := if s.deps.isEmpty then [pseudoKey s.name] else s.deps
  (cache ++ [s.name]).filter (evictionKeep g outputs isInputNode inputNames s.unprocessed)

/-- A forward-pass trace entry: the processed node, its predecessor list, the
still-unprocessed nodes, and the cache keys right after the node's liveness
eviction. -/
structure ForwardStep where
  name : String
  deps : List String
  unprocessed : List String
  cache : List String
deriving DecidableEq, Repr

/-- Run the forward loop over a traversal, recording the cache after every
eviction scan. -/
def forwardAux (g : Graph) (outputs : List String) :
    List TravStep → List String → List ForwardStep
  | [], _ => []
  | s :: rest, cache =>
    let cache' := forwardStep g outputs cache s
    ⟨s.name, s.deps, s.unprocessed, cache'⟩ :: forwardAux g outputs rest cache'

/-- The cache evolution of one full forward pass of `LuxonisModel.forward`. -/
def forwardTrace (g : Graph) (outputs : List String) : List ForwardStep :=
  forwardAux g outputs (traverse_graph g) (initialCache g)

/-- The liveness invariant claimed by the spec (§4.4 rule 4 and §8): after
every node's eviction step, every cache entry is a declared output, or an
as-yet-unconsumed pseudo input Packet (its owner still unprocessed), or
required as a predecessor by a still-unprocessed node. -/
def claimedLiveness (g : Graph) (outputs : List String) : Prop :=
  ∀ e ∈ forwardTrace g outputs, ∀ k ∈ e.cache,
    k ∈ outputs
      ∨ (∃ m ∈ e.unprocessed, k = pseudoKey m)
      ∨ (∃ m ∈ e.unprocessed, k ∈ depsOf g m)

/-! ## Loss reduction (`LuxonisModel.process_losses`,
luxonis_model.py lines 489-529)

A computed loss value is either a bare tensor or a (tensor, named-subloss
dict) pair.  `loss *= self.loss_weights[loss_name]` is an in-place tensor
multiplication, so the function returns the updated losses dict alongside
the final loss and the flat logging mapping; `loss_weights` is modelled as
the total lookup function the source's dict access assumes. -/

inductive LossValue where
  | single : Tsr → LossValue
  | withSub : Tsr → List (String × Tsr) → LossValue
deriving DecidableEq, Repr

abbrev LossesDict := List (String × List (String × LossValue))

/-- The scalar part of a loss value (`loss, sublosses = loss_values` or
`loss = loss_values`). -/
def scalarOf : LossValue → Tsr
  | .single t => t
  | .withSub t _ => t

/-- The sublosses of a loss value (`{}` for a bare tensor). -/
def sublossesOf : LossValue → List (String × Tsr)
  | .single _ => []
  | .withSub _ s => s

/-- The body of the inner loop of `process_losses` (lines 511-527) for one
`(loss_name, loss_values)` entry: scale the scalar in place by its weight,
add it to the running total, log it detached, and (when enabled and present)
log each subloss detached.  Returns the updated
(running total, log) pair and the mutated stored loss value. -/
def processLossEntry (logSubLosses : Bool) (weights : String → ℚ) (node : String)
    (st : Tsr × List (String × Tsr)) (e : String × LossValue) :
    (Tsr × List (String × Tsr)) × (String × LossValue) :=
  let t := scalarOf e.2
  let subs := sublossesOf e.2
  let t' : Tsr := ⟨t.val * weights e.1, t.requiresGrad⟩
  let final' : Tsr := ⟨st.1.val + t'.val, st.1.requiresGrad || t'.requiresGrad⟩
  let log₁ := st.2 ++ [("loss/" ++ (node ++ "/" ++ e.1), t'.detach)]
  let log₂ :=
    if logSubLosses && !subs.isEmpty then
      log₁ ++ subs.map fun p => ("loss/" ++ (node ++ "/" ++ e.1 ++ "/" ++ p.1), p.2.detach)
    else log₁
  let e' := match e.2 with
    | .single _ => LossValue.single t'
    | .withSub _ s => LossValue.withSub t' s
  ((final', log₂), (e.1, e'))

/-- The inner loop of `process_losses` over one node's losses, threading the
running total and the log and collecting the mutated dict entries. -/
def processNodeLosses (logSubLosses : Bool) (weights : String → ℚ) (node : String) :
    List (String × LossValue) → Tsr → List (String × Tsr) →
      Tsr × List (String × Tsr) × List (String × LossValue)
  | [], fl, log => (fl, log, [])
  | e :: rest, fl, log =>
    let r := processLossEntry logSubLosses weights node (fl, log) e
    let rec' := processNodeLosses logSubLosses weights node rest r.1.1 r.1.2
    (rec'.1, rec'.2.1, r.2 :: rec'.2.2)

/-- The outer loop of `process_losses` over the nodes of the losses dict. -/
def processAllLosses (logSubLosses : Bool) (weights : String → ℚ) :
    LossesDict → Tsr → List (String × Tsr) →
      Tsr × List (String × Tsr) × LossesDict
  | [], fl, log => (fl, log, [])
  | (node, ls) :: rest, fl, log =>
    let r := processNodeLosses logSubLosses weights node ls fl log
    let rec' := processAllLosses logSubLosses weights rest r.1 r.2.1
    (rec'.1, rec'.2.1, (node, r.2.2) :: rec'.2.2)

/-- `LuxonisModel.process_losses` (luxonis_model.py lines 489-529): the
running total starts at `torch.zeros(1)`, every individual loss is weighted
and summed, and the log finally gains a `"loss"` entry holding the detached
total.  Returns (final loss, log, mutated losses dict). -/
def process_losses (logSubLosses : Bool) (weights : String → ℚ) (d : LossesDict) :
    Tsr × List (String × Tsr) × LossesDict :=
  let r := processAllLosses logSubLosses weights d ⟨0, false⟩ []
  (r.1, r.2.1 ++ [("loss", r.1.detach)], r.2.2)

/-- The weighted sum of the scalar parts of all losses: what §4.6 says the
total is. -/
def lossTotal (weights : String → ℚ) (d : LossesDict) : ℚ :=
  (d.map fun p => (p.2.map fun e => (scalarOf e.2).val * weights e.1).sum).sum

/-! ## Metric computation (`LuxonisModel.compute_metrics`,
luxonis_model.py lines 382-414)

`metric.compute()` may return a bare tensor, a (tensor, submetric dict)
pair, a bare dict, or anything else; the `match` statement normalizes the
first three shapes and raises `ValueError` otherwise.  Metric values are
scalars here; a metric module carries an accumulator (its running state)
and the value its `compute()` produces. -/

inductive MetricResult where
  | tensor : ℚ → MetricResult
  | pair : ℚ → List (String × ℚ) → MetricResult
  | mapping : List (String × ℚ) → MetricResult
  | other : String → MetricResult
deriving DecidableEq, Repr

structure Metric where
  accumulator : ℚ
  computeResult : MetricResult
deriving DecidableEq, Repr

/-- `metric.reset()`: clears the accumulator state. -/
def Metric.reset (m : Metric) : Metric := { m with accumulator := 0 }

/-- Python dict union `a | b`: keys of `a` in order (values taken from `b`
where present), then the keys of `b` not in `a`, in order. -/
def dictUnion (a b : List (String × ℚ)) : List (String × ℚ) :=
  (a.map fun p => (p.1, (b.lookup p.1).getD p.2))
    ++ b.filter fun p => (a.lookup p.1).isNone

/-- The `match metric.compute()` normalization (luxonis_model.py 398-411). -/
def normalizeMetric (metricName : String) : MetricResult → Except String (List (String × ℚ))
  | .pair v subs => .ok (dictUnion [(metricName, v)] subs)
  | .tensor v => .ok [(metricName, v)]
  | .mapping subs => .ok subs
  | .other d =>
    .error ("Metric " ++ metricName ++ " returned unexpected value of type " ++ d ++ ".")

/-- The inner loop of `compute_metrics` over one node's metrics: fold the
normalized submetric dicts together with `|=`, resetting each metric after
its (successful) computation. -/
def computeNodeMetrics (acc : List (String × ℚ)) :
    List (String × Metric) →
      Except String (List (String × ℚ) × List (String × Metric))
  | [] => .ok (acc, [])
  | (nm, m) :: rest =>
    match normalizeMetric nm m.computeResult with
    | .error e => .error e
    | .ok subs =>
      match computeNodeMetrics (dictUnion acc subs) rest with
      | .error e => .error e
      | .ok (r, ms) => .ok (r, (nm, m.reset) :: ms)

/-- `LuxonisModel.compute_metrics` (luxonis_model.py lines 382-414), also
returning the metric modules as left behind by the `reset()` calls. -/
def compute_metrics :
    List (String × List (String × Metric)) →
      Except String
        (List (String × List (String × ℚ)) × List (String × List (String × Metric)))
  | [] => .ok ([], [])
  | (node, ms) :: rest =>
    match computeNodeMetrics [] ms with
    | .error e => .error e
    | .ok (r, ms') =>
      match compute_metrics rest with
      | .error e => .error e
      | .ok (rs, rest') => .ok ((node, r) :: rs, (node, ms') :: rest')

/-! ## Checkpoint loading (`LuxonisModel.load_checkpoint`,
luxonis_model.py lines 732-767)

A parameter is a tensor with a shape; `copy_` success is delegated to the
external tensor runtime and therefore taken as a parameter `canCopy` (torch
raises when shapes/dtypes are incompatible).  A checkpoint artifact is an
associative structure whose `"state_dict"` key, when present, holds the
saved parameter mapping.  Warnings are collected in emission order. -/

structure Param where
  shape : List Nat
  val : ℚ
deriving DecidableEq, Repr

abbrev StateDict := List (String × Param)

abbrev Checkpoint := List (String × StateDict)

/-- The body of the second loop of `load_checkpoint` (lines 756-765): a key
missing from the (filtered) checkpoint state dict is warned about and left
alone; otherwise `copy_` either copies the saved value in place or, on
failure, warns and leaves the parameter alone. -/
def loadStep (canCopy : Param → Param → Bool) (state_dict : StateDict)
    (acc : StateDict × List String) (p : String × Param) : StateDict × List String :=
  match state_dict.lookup p.1 with
  | none =>
    (acc.1 ++ [p], acc.2 ++ ["Key `" ++ p.1 ++ "` was not found in checkpoint."])
  | some v =>
    if canCopy p.2 v then
      (acc.1 ++ [(p.1, ⟨p.2.shape, v.val⟩)], acc.2)
    else
      (acc.1 ++ [p],
        acc.2 ++ ["Key `" ++ p.1 ++ "` from checkpoint could not be loaded into model."])

/-- `LuxonisModel.load_checkpoint` for a present artifact: `ValueError` when
the artifact has no `"state_dict"` key; otherwise two best-effort passes.
Returns the model's state dict after loading together with the warnings. -/
def load_checkpoint (canCopy : Param → Param → Bool) (checkpoint : Checkpoint)
    (self_state_dict : StateDict) : Except String (StateDict × List String) :=
  match checkpoint.lookup "state_dict" with
  | none => .error "Checkpoint does not contain state_dict."
  | some sd =>
    let state_dict := sd.filter fun p => (self_state_dict.lookup p.1).isSome
    let warns₁ :=
      (sd.filter fun p => (self_state_dict.lookup p.1).isNone).map fun p =>
        "Key `" ++ p.1 ++ "` from checkpoint not found in model state dict."
    let r := self_state_dict.foldl (loadStep canCopy state_dict) ([], [])
    .ok (r.1, warns₁ ++ r.2)

/-- The per-key reconciliation §4.7 describes: keys present in both are
copied in place (when the runtime copy succeeds), all other keys keep the
live model's initialized value. -/
def specTransfer (canCopy : Param → Param → Bool) (sd : StateDict)
    (p : String × Param) : String × Param :=
  match sd.lookup p.1 with
  | none => p
  | some v => if canCopy p.2 v then (p.1, ⟨p.2.shape, v.val⟩) else p

/-- The warnings §4.7 describes, in emission order: checkpoint-only keys
first, then (in model order) the missing-from-checkpoint and failed-copy
keys. -/
def specWarnings (canCopy : Param → Param → Bool) (sd : StateDict)
    (self_state_dict : StateDict) : List String :=
  ((sd.filter fun p => (self_state_dict.lookup p.1).isNone).map fun p =>
      "Key `" ++ p.1 ++ "` from checkpoint not found in model state dict.")
    ++ self_state_dict.filterMap fun p =>
      match sd.lookup p.1 with
      | none => some ("Key `" ++ p.1 ++ "` was not found in checkpoint.")
      | some v =>
        if canCopy p.2 v then none
        else some ("Key `" ++ p.1 ++ "` from checkpoint could not be loaded into model.")

/-! # Theorems -/

/-! ## C9: deterministic lexicographic output enumeration for export -/

/-- C9: for a fixed input shape, the ONNX export enumerates the model's
output tensors in lexicographic order over (node name, output-slot name,
tensor index) — `outputOrder` is sorted under `lexLe` and is a permutation of
all output triples — and the default output names are `node/slot/index`
strings in exactly that order.  Determinism across runs is inherent:
`outputOrder` is a pure function of the output mapping. -/
theorem c9_export_enumeration (outs : OutputsMap) :
    List.Sorted lexLe (outputOrder outs)
      ∧ (outputOrder outs).Perm (allOutputTriples outs)
      ∧ defaultOutputNames outs = (outputOrder outs).map outputNameOf :=
  ⟨List.sorted_insertionSort lexLe (allOutputTriples outs),
    List.perm_insertionSort lexLe (allOutputTriples outs), rfl⟩

/-! ## C10: the frozen-node schedule -/

/-- The `frozen_nodes` loop restated as filter-then-map. -/
theorem buildFrozenNodes_aux (epochs : Int) (nodes : List ModelNodeConfig) :
    ∀ acc : List (String × Int),
      nodes.foldl
        (fun acc n =>
          if n.freezing.active then
            acc ++ [(aliasOrName n, resolveUnfreezeAfter epochs n.freezing.unfreeze_after)]
          else acc) acc
      = acc ++ (nodes.filter fun n => n.freezing.active).map
          (fun n => (aliasOrName n, resolveUnfreezeAfter epochs n.freezing.unfreeze_after)) := by
  induction nodes with
  | nil => intro acc; simp
  | cons n rest ih =>
    intro acc
    by_cases h : n.freezing.active = true
    · simp only [List.foldl_cons, h, if_true, ih, List.filter_cons, List.map_cons]
      simp [h]
    · simp only [List.foldl_cons, h, if_false, ih, List.filter_cons]
      simp [h]

/-- C10: for every node with an active freeze spec, the unfreeze epoch
recorded in the frozen-node schedule is the configured `unfreeze_after` when
it is an integer, the integer part of `unfreeze_after * epochs` when it is a
float, and the total number of epochs when it is `None`. -/
theorem c10_frozen_schedule (nodes : List ModelNodeConfig) (epochs : Int) :
    buildFrozenNodes nodes epochs
      = (nodes.filter fun n => n.freezing.active).map
          (fun n => (aliasOrName n, resolveUnfreezeAfter epochs n.freezing.unfreeze_after))
    ∧ (∀ i : Int, resolveUnfreezeAfter epochs (.int i) = i)
    ∧ (∀ q : ℚ, resolveUnfreezeAfter epochs (.float q) = ratTrunc (q * epochs))
    ∧ resolveUnfreezeAfter epochs .null = epochs := by
  refine ⟨?_, fun i => rfl, fun q => rfl, rfl⟩
  simpa using buildFrozenNodes_aux epochs nodes []

/-! ## C4: metric normalization and reset -/

/-- After a successful pass over one node's metrics, every returned metric
module has been reset. -/
theorem computeNodeMetrics_reset (ms : List (String × Metric)) :
    ∀ acc r, computeNodeMetrics acc ms = .ok r →
      ∀ q ∈ r.2, q.2.accumulator = 0 := by
  induction ms with
  | nil =>
    intro acc r h q hq
    simp only [computeNodeMetrics] at h
    cases h
    simp at hq
  | cons e rest ih =>
    intro acc r h q hq
    cases hn : normalizeMetric e.1 e.2.computeResult with
    | error msg => simp only [computeNodeMetrics, hn] at h; cases h
    | ok subs =>
      cases hr : computeNodeMetrics (dictUnion acc subs) rest with
      | error msg => simp only [computeNodeMetrics, hn, hr] at h; cases h
      | ok pr =>
        obtain ⟨r1, ms1⟩ := pr
        simp only [computeNodeMetrics, hn, hr] at h
        cases h
        rcases List.mem_cons.mp hq with hq | hq
        · subst hq; rfl
        · exact ih _ (r1, ms1) hr q hq

/-- After a successful `compute_metrics`, every metric module of every node
has been reset. -/
theorem compute_metrics_reset (METRICS : List (String × List (String × Metric))) :
    ∀ r, compute_metrics METRICS = .ok r →
      ∀ p ∈ r.2, ∀ q ∈ p.2, q.2.accumulator = 0 := by
  induction METRICS with
  | nil =>
    intro r h p hp
    simp only [compute_metrics] at h
    cases h
    simp at hp
  | cons nms rest ih =>
    intro r h p hp q hq
    obtain ⟨node, ms⟩ := nms
    cases hn : computeNodeMetrics [] ms with
    | error msg => simp only [compute_metrics, hn] at h; cases h
    | ok nr =>
      obtain ⟨nr1, nms'⟩ := nr
      cases hr : compute_metrics rest with
      | error msg => simp only [compute_metrics, hn, hr] at h; cases h
      | ok rr =>
        obtain ⟨rs, rest'⟩ := rr
        simp only [compute_metrics, hn, hr] at h
        cases h
        rcases List.mem_cons.mp hp with hp | hp
        · subst hp; exact computeNodeMetrics_reset ms [] (nr1, nms') hn q hq
        · exact ih (rs, rest') hr p hp q hq

/-- C4: for an attached metric named `m`, compute-time normalization maps a
bare tensor `v` to `{m: v}`, a pair `(v, submetrics)` to `{m: v}` merged
with the submetrics, and a bare mapping to itself; any other shape is a
`ValueError`; and after a successful `compute_metrics` every metric's
accumulator state has been reset. -/
theorem c4_metric_normalization :
    (∀ (m : String) (v : ℚ), normalizeMetric m (.tensor v) = .ok [(m, v)])
    ∧ (∀ (m : String) (v : ℚ) (subs : List (String × ℚ)),
        normalizeMetric m (.pair v subs) = .ok (dictUnion [(m, v)] subs))
    ∧ (∀ (m : String) (subs : List (String × ℚ)),
        normalizeMetric m (.mapping subs) = .ok subs)
    ∧ (∀ (m d : String), ∃ e, normalizeMetric m (.other d) = .error e)
    ∧ (∀ (METRICS : List (String × List (String × Metric))) r,
        compute_metrics METRICS = .ok r →
          ∀ p ∈ r.2, ∀ q ∈ p.2, q.2.accumulator = 0) :=
  ⟨fun _ _ => rfl, fun _ _ _ => rfl, fun _ _ => rfl,
    fun _ _ => ⟨_, rfl⟩, fun METRICS => compute_metrics_reset METRICS⟩

/-- One node with one metric whose accumulator holds 5 and whose `compute()`
returns a bare tensor. -/
def metricsEx : List (String × List (String × Metric)) :=
  [("node", [("m", Metric.mk 5 (.tensor 7))])]

/-- Concrete instantiation of C4's reset clause on `metricsEx`. -/
theorem c4_metric_normalization_witness :
    (("m", Metric.mk 0 (.tensor 7)) : String × Metric).2.accumulator = 0 :=
  c4_metric_normalization.2.2.2.2 metricsEx
    ([("node", [("m", (7 : ℚ))])], [("node", [("m", Metric.mk 0 (.tensor 7))])])
    rfl
    ("node", [("m", Metric.mk 0 (.tensor 7))]) (by simp)
    ("m", Metric.mk 0 (.tensor 7)) (by simp)

/-! ## Loss reducer lemmas (for C2, C3, C7) -/

/-- The running total accumulated over one node's losses. -/
theorem processNodeLosses_total (logSub : Bool) (w : String → ℚ) (node : String) :
    ∀ (ls : List (String × LossValue)) (fl : Tsr) (log : List (String × Tsr)),
      (processNodeLosses logSub w node ls fl log).1.val
        = fl.val + (ls.map fun e => (scalarOf e.2).val * w e.1).sum := by
  intro ls
  induction ls with
  | nil => intro fl log; simp [processNodeLosses]
  | cons e rest ih =>
    intro fl log
    simp only [processNodeLosses, processLossEntry, List.map_cons, List.sum_cons]
    rw [ih]
    ring

/-- The running total accumulated over the whole losses dict. -/
theorem processAllLosses_total (logSub : Bool) (w : String → ℚ) :
    ∀ (d : LossesDict) (fl : Tsr) (log : List (String × Tsr)),
      (processAllLosses logSub w d fl log).1.val = fl.val + lossTotal w d := by
  intro d
  induction d with
  | nil => intro fl log; simp [processAllLosses, lossTotal]
  | cons p rest ih =>
    intro fl log
    simp only [processAllLosses, lossTotal, List.map_cons, List.sum_cons]
    rw [ih, processNodeLosses_total]
    simp [lossTotal]
    ring

/-- The log entries one `(loss_name, loss_values)` pair contributes. -/
def entryLossLog (logSub : Bool) (w : String → ℚ) (node : String)
    (e : String × LossValue) : List (String × Tsr) :=
  ("loss/" ++ (node ++ "/" ++ e.1), ⟨(scalarOf e.2).val * w e.1, false⟩) ::
    (if logSub && !(sublossesOf e.2).isEmpty then
      (sublossesOf e.2).map fun p => ("loss/" ++ (node ++ "/" ++ e.1 ++ "/" ++ p.1), p.2.detach)
    else [])

/-- The inner loop only appends to the log, and appends exactly the per-entry
log lists. -/
theorem processNodeLosses_log (logSub : Bool) (w : String → ℚ) (node : String) :
    ∀ (ls : List (String × LossValue)) (fl : Tsr) (log : List (String × Tsr)),
      (processNodeLosses logSub w node ls fl log).2.1
        = log ++ ls.flatMap (entryLossLog logSub w node) := by
  intro ls
  induction ls with
  | nil => intro fl log; simp [processNodeLosses]
  | cons e rest ih =>
    intro fl log
    simp only [processNodeLosses, processLossEntry, List.flatMap_cons]
    rw [ih]
    simp only [entryLossLog, Tsr.detach]
    by_cases h : (logSub && !(sublossesOf e.2).isEmpty) = true
    · simp [h, List.append_assoc]
    · simp only [Bool.not_eq_true] at h
      simp [h, List.append_assoc]

/-- The flat log produced by the whole dict, before the final `"loss"` key. -/
def allLossLog (logSub : Bool) (w : String → ℚ) (d : LossesDict) : List (String × Tsr) :=
  d.flatMap fun p => p.2.flatMap (entryLossLog logSub w p.1)

theorem processAllLosses_log (logSub : Bool) (w : String → ℚ) :
    ∀ (d : LossesDict) (fl : Tsr) (log : List (String × Tsr)),
      (processAllLosses logSub w d fl log).2.1 = log ++ allLossLog logSub w d := by
  intro d
  induction d with
  | nil => intro fl log; simp [processAllLosses, allLossLog]
  | cons p rest ih =>
    intro fl log
    simp only [processAllLosses, allLossLog, List.flatMap_cons]
    rw [ih, processNodeLosses_log]
    simp [allLossLog, List.append_assoc]

/-- Every key the loss loops put into the log starts with `"loss/"`. -/
theorem allLossLog_keys (logSub : Bool) (w : String → ℚ) (d : LossesDict) :
    ∀ x ∈ allLossLog logSub w d, ∃ t, x.1 = "loss/" ++ t := by
  intro x hx
  rcases List.mem_flatMap.mp hx with ⟨p, _, hx⟩
  rcases List.mem_flatMap.mp hx with ⟨e, _, hx⟩
  rcases List.mem_cons.mp hx with hx | hx
  · exact ⟨_, by rw [hx]⟩
  · by_cases h : (logSub && !(sublossesOf e.2).isEmpty) = true
    · rw [if_pos h] at hx
      rcases List.mem_map.mp hx with ⟨q, _, hq⟩
      exact ⟨_, by rw [← hq]⟩
    · rw [if_neg h] at hx
      cases hx

/-- `"loss"` is not of the form `"loss/" ++ t`. -/
theorem loss_key_ne (t : String) : "loss" ≠ "loss/" ++ t := by
  intro h
  have hl := congrArg String.length h
  rw [String.length_append] at hl
  have h4 : ("loss" : String).length = 4 := rfl
  have h5 : ("loss/" : String).length = 5 := rfl
  omega

/-- A log whose keys all start with `"loss/"` has no `"loss"` key. -/
theorem lookup_loss_none (l : List (String × Tsr))
    (h : ∀ x ∈ l, ∃ t, x.1 = "loss/" ++ t) : l.lookup "loss" = none := by
  induction l with
  | nil => rfl
  | cons x rest ih =>
    rcases h x (List.mem_cons_self x rest) with ⟨t, ht⟩
    have hne : ("loss" == x.1) = false := by
      rw [ht]
      exact beq_false_of_ne (loss_key_ne t)
    obtain ⟨k, v⟩ := x
    simp only at ht hne
    simp only [List.lookup_cons, hne]
    exact ih fun y hy => h y (List.mem_cons_of_mem _ hy)

/-! ## C7: the weighted-sum reduction and the `"loss"` log key -/

/-- C7: the loss reducer's scalar total is the sum of each individual loss
scaled by its configured weight, accumulated from zero; the flat log mapping
always contains a `"loss"` key holding exactly the (detached) summed total;
and the configured weight defaults to `1.0`. -/
theorem c7_loss_reduction (logSubLosses : Bool) (weights : String → ℚ) (d : LossesDict) :
    (process_losses logSubLosses weights d).1.val = lossTotal weights d
    ∧ (process_losses logSubLosses weights d).2.1.lookup "loss"
        = some ⟨lossTotal weights d, false⟩
    ∧ ∀ b : AttachedModuleConfig,
        ({ toAttachedModuleConfig := b } : LossModuleConfig).weight = 1 := by
  have htot : (process_losses logSubLosses weights d).1.val = lossTotal weights d := by
    simp only [process_losses]
    rw [processAllLosses_total]
    simp
  refine ⟨htot, ?_, fun b => rfl⟩
  simp only [process_losses] at htot ⊢
  rw [List.lookup_append, processAllLosses_log]
  rw [lookup_loss_none _ (by simpa using allLossLog_keys logSubLosses weights d)]
  simp [List.lookup_cons, Tsr.detach, htot]

/-! ## C2: the loss reducer is not idempotent (in-place weight scaling) -/

/-- A one-node, one-loss dict whose loss tensor holds 1. -/
def lossesEx : LossesDict := [("node", [("loss1", .single ⟨1, true⟩)])]

/-- A weight assignment giving every loss the weight 2. -/
def weightsEx : String → ℚ := fun _ => 2

/-- C2 counterexample: with weight 2 the reduction scales the stored loss
tensor in place, so the input mapping is mutated and reducing the mutated
mapping again yields 4 instead of 2.  This falsifies the claim that the
reduction is idempotent and does not mutate its input. -/
theorem c2_loss_reducer_counterexample :
    (process_losses true weightsEx lossesEx).2.2 ≠ lossesEx
    ∧ (process_losses true weightsEx (process_losses true weightsEx lossesEx).2.2).1.val
        ≠ (process_losses true weightsEx lossesEx).1.val := by
  constructor
  · intro h
    simp only [process_losses, processAllLosses, processNodeLosses, processLossEntry,
      lossesEx, weightsEx, scalarOf, sublossesOf] at h
    rw [List.cons.injEq] at h
    rw [Prod.mk.injEq] at h
    have := h.1.2
    rw [List.cons.injEq, Prod.mk.injEq] at this
    have h2 := this.1.2
    rw [LossValue.single.injEq, Tsr.mk.injEq] at h2
    have h3 := h2.1
    norm_num at h3
  · intro h
    simp only [process_losses, processAllLosses, processNodeLosses, processLossEntry,
      lossesEx, weightsEx, scalarOf, sublossesOf] at h
    norm_num at h

/-- C2 amended: the reduction is idempotent and mutation-free exactly in the
unweighted case — when every applicable weight is `1`, the returned dict is
the input dict and a second reduction returns the same result; in general
`loss *= weight` scales the stored tensors in place (see the
counterexample). -/
theorem c2_loss_reducer_amended (logSubLosses : Bool) (weights : String → ℚ)
    (d : LossesDict) (h : ∀ p ∈ d, ∀ e ∈ p.2, weights e.1 = 1) :
    (process_losses logSubLosses weights d).2.2 = d
    ∧ process_losses logSubLosses weights (process_losses logSubLosses weights d).2.2
        = process_losses logSubLosses weights d := by
  have inner : ∀ (node : String) (ls : List (String × LossValue)),
      (∀ e ∈ ls, weights e.1 = 1) → ∀ fl log,
        (processNodeLosses logSubLosses weights node ls fl log).2.2 = ls := by
    intro node ls
    induction ls with
    | nil => intro _ fl log; rfl
    | cons e rest ih =>
      intro he fl log
      have h1 : weights e.1 = 1 := he e (List.mem_cons_self e rest)
      simp only [processNodeLosses, processLossEntry, h1, mul_one]
      rw [ih (fun x hx => he x (List.mem_cons_of_mem _ hx))]
      obtain ⟨nm, lv⟩ := e
      cases lv <;> rfl
  have outer : ∀ (dd : LossesDict), (∀ p ∈ dd, ∀ e ∈ p.2, weights e.1 = 1) →
      ∀ fl log, (processAllLosses logSubLosses weights dd fl log).2.2 = dd := by
    intro dd
    induction dd with
    | nil => intro _ fl log; rfl
    | cons p rest ih =>
      intro hp fl log
      simp only [processAllLosses]
      rw [inner p.1 p.2 (hp p (List.mem_cons_self p rest)),
        ih (fun x hx => hp x (List.mem_cons_of_mem _ hx))]
  have hd : (process_losses logSubLosses weights d).2.2 = d := outer d h ⟨0, false⟩ []
  exact ⟨hd, by rw [hd]⟩

/-- Concrete instantiation of C2's amended claim at weight `1`. -/
theorem c2_loss_reducer_amended_witness :
    (process_losses true (fun _ => 1) lossesEx).2.2 = lossesEx
    ∧ process_losses true (fun _ => 1) (process_losses true (fun _ => 1) lossesEx).2.2
        = process_losses true (fun _ => 1) lossesEx :=
  c2_loss_reducer_amended true (fun _ => 1) lossesEx (fun _ _ _ _ => rfl)

/-! ## C3: substructured losses -/

/-- A one-node dict with a substructured loss: scalar 1 and one subloss 3. -/
def lossesSubEx : LossesDict :=
  [("node", [("loss1", .withSub ⟨1, true⟩ [("sub", ⟨3, true⟩)])])]

/-- C3 counterexample: with weight 2, the subloss is logged as the raw
detached value 3, not as the weighted value 2 * 3 the claim requires. -/
theorem c3_subloss_counterexample :
    (process_losses true weightsEx lossesSubEx).2.1.lookup
        ("loss/" ++ ("node" ++ "/" ++ "loss1" ++ "/" ++ "sub"))
      = some ⟨3, false⟩
    ∧ (⟨3, false⟩ : Tsr) ≠ ⟨weightsEx "loss1" * 3, false⟩ := by
  constructor
  · rfl
  · intro h
    rw [Tsr.mk.injEq] at h
    have h1 := h.1
    simp only [weightsEx] at h1
    norm_num at h1


/-- C3 amended: a substructured loss contributes only its weighted scalar to
the running total (the total is the weighted sum of scalar parts only, so
sublosses never contribute), and each subloss appears in the flat logging
mapping as the raw unweighted value detached from differentiation (when
subloss logging is enabled, its default). -/
theorem c3_subloss_amended (weights : String → ℚ) (d : LossesDict) :
    (process_losses true weights d).1.val = lossTotal weights d
    ∧ ∀ p ∈ d, ∀ e ∈ p.2, ∀ s ∈ sublossesOf e.2,
        ("loss/" ++ (p.1 ++ "/" ++ e.1 ++ "/" ++ s.1), s.2.detach)
          ∈ (process_losses true weights d).2.1 := by
  constructor
  · simp only [process_losses]
    rw [processAllLosses_total]
    simp
  · intro p hp e he s hs
    simp only [process_losses]
    rw [processAllLosses_log]
    simp only [List.nil_append]
    apply List.mem_append_left
    apply List.mem_flatMap.mpr
    refine ⟨p, hp, ?_⟩
    apply List.mem_flatMap.mpr
    refine ⟨e, he, ?_⟩
    apply List.mem_cons_of_mem
    have hne : (sublossesOf e.2).isEmpty = false :=
      List.isEmpty_eq_false_iff_exists_mem.mpr ⟨s, hs⟩
    simp only [entryLossLog, hne, Bool.not_false, Bool.and_self, if_true]
    exact List.mem_map.mpr ⟨s, hs, rfl⟩

/-- Concrete instantiation of C3's amended claim on `lossesSubEx`. -/
theorem c3_subloss_amended_witness :
    ("loss/" ++ ("node" ++ "/" ++ "loss1" ++ "/" ++ "sub"), Tsr.detach ⟨3, true⟩)
      ∈ (process_losses true weightsEx lossesSubEx).2.1 :=
  (c3_subloss_amended weightsEx lossesSubEx).2
    ("node", [("loss1", .withSub ⟨1, true⟩ [("sub", ⟨3, true⟩)])])
    (by simp [lossesSubEx])
    ("loss1", .withSub ⟨1, true⟩ [("sub", ⟨3, true⟩)])
    (by simp)
    ("sub", ⟨3, true⟩)
    (by simp [sublossesOf])

/-! ## C5: best-effort checkpoint loading -/

/-- A present pair makes `lookup` of its key succeed. -/
theorem lookup_isSome_of_mem {β : Type} (k : String) (v : β) :
    ∀ l : List (String × β), (k, v) ∈ l → (l.lookup k).isSome = true := by
  intro l
  induction l with
  | nil => intro h; cases h
  | cons x rest ih =>
    intro h
    obtain ⟨xk, xv⟩ := x
    by_cases hk : (k == xk) = true
    · simp [List.lookup_cons, hk]
    · rw [Bool.not_eq_true] at hk
      simp only [List.lookup_cons, hk]
      rcases List.mem_cons.mp h with h | h
      · rw [Prod.mk.injEq] at h
        rw [h.1] at hk
        simp at hk
      · exact ih h

/-- The pass-1 filter keeps every entry whose key the live model has, so at
such keys it is invisible to `lookup`. -/
theorem lookup_filter_self {β : Type} (self : List (String × β)) (k : String)
    (hk : (self.lookup k).isSome = true) :
    ∀ sd : List (String × β),
      (sd.filter fun p => (self.lookup p.1).isSome).lookup k = sd.lookup k := by
  intro sd
  induction sd with
  | nil => rfl
  | cons x rest ih =>
    obtain ⟨xk, xv⟩ := x
    simp only [List.filter_cons]
    by_cases hx : (self.lookup xk).isSome = true
    · simp only [hx]
      simp only [if_true]
      simp only [List.lookup_cons]
      by_cases hkx : (k == xk) = true
      · simp [hkx]
      · rw [Bool.not_eq_true] at hkx
        simp only [hkx]
        exact ih
    · rw [Bool.not_eq_true] at hx
      have hkx : (k == xk) = false := by
        rcases Bool.eq_false_or_eq_true (k == xk) with h | h
        · rw [beq_iff_eq] at h
          rw [h] at hk
          rw [hk] at hx
          cases hx
        · exact h
      simp only [hx]
      simp only [Bool.false_eq_true, if_false]
      rw [List.lookup_cons]
      simp only [hkx]
      exact ih

/-- The second loop of `load_checkpoint`, restated as map / filterMap over
the live state dict. -/
theorem loadFold (canCopy : Param → Param → Bool) (keep : StateDict) :
    ∀ (self : StateDict) (acc : StateDict × List String),
      self.foldl (loadStep canCopy keep) acc
        = (acc.1 ++ self.map (fun p =>
              match keep.lookup p.1 with
              | none => p
              | some v => if canCopy p.2 v then (p.1, ⟨p.2.shape, v.val⟩) else p),
           acc.2 ++ self.filterMap (fun p =>
              match keep.lookup p.1 with
              | none => some ("Key `" ++ p.1 ++ "` was not found in checkpoint.")
              | some v =>
                if canCopy p.2 v then none
                else some ("Key `" ++ p.1 ++ "` from checkpoint could not be loaded into model."))) := by
  intro self
  induction self with
  | nil => intro acc; simp
  | cons p rest ih =>
    intro acc
    rw [List.foldl_cons, ih]
    cases hl : keep.lookup p.1 with
    | none =>
      simp only [loadStep, hl, List.map_cons, List.filterMap_cons]
      simp [List.append_assoc]
    | some v =>
      by_cases hc : canCopy p.2 v = true
      · simp only [loadStep, hl, hc, if_true, List.map_cons, List.filterMap_cons]
        simp [List.append_assoc]
      · rw [Bool.not_eq_true] at hc
        simp only [loadStep, hl, hc, Bool.false_eq_true, if_false, List.map_cons,
          List.filterMap_cons]
        simp [List.append_assoc]

/-- C5: checkpoint loading fails with `ValueError` exactly when the artifact
has no top-level `"state_dict"` key; otherwise it succeeds, the resulting
live state copies in place every key present in both state dicts (when the
runtime copy succeeds) and keeps the initialized value for every other key,
and a warning is collected for every checkpoint-only key, every model-only
key, and every key whose individual copy fails. -/
theorem c5_load_checkpoint (canCopy : Param → Param → Bool) (checkpoint : Checkpoint)
    (self_state_dict : StateDict) :
    ((∃ e, load_checkpoint canCopy checkpoint self_state_dict = .error e)
        ↔ checkpoint.lookup "state_dict" = none)
    ∧ ∀ sd, checkpoint.lookup "state_dict" = some sd →
        load_checkpoint canCopy checkpoint self_state_dict
          = .ok (self_state_dict.map (specTransfer canCopy sd),
                 specWarnings canCopy sd self_state_dict) := by
  cases hl : checkpoint.lookup "state_dict" with
  | none =>
    refine ⟨⟨fun _ => rfl, fun _ => ⟨"Checkpoint does not contain state_dict.", ?_⟩⟩, ?_⟩
    · simp [load_checkpoint, hl]
    · intro sd hsd
      cases hsd
  | some sd =>
    have hok : load_checkpoint canCopy checkpoint self_state_dict
        = .ok (self_state_dict.map (specTransfer canCopy sd),
               specWarnings canCopy sd self_state_dict) := by
      simp only [load_checkpoint, hl]
      rw [loadFold]
      dsimp only
      simp only [List.nil_append]
      have hmap : self_state_dict.map (fun p =>
          match (sd.filter fun q => (self_state_dict.lookup q.1).isSome).lookup p.1 with
          | none => p
          | some v => if canCopy p.2 v then (p.1, ⟨p.2.shape, v.val⟩) else p)
          = self_state_dict.map (specTransfer canCopy sd) := by
        apply List.map_congr_left
        intro p hp
        have hq : (self_state_dict.lookup p.1).isSome = true :=
          lookup_isSome_of_mem p.1 p.2 self_state_dict hp
        rw [lookup_filter_self self_state_dict p.1 hq sd]
        rfl
      have hwarn : self_state_dict.filterMap (fun p =>
          match (sd.filter fun q => (self_state_dict.lookup q.1).isSome).lookup p.1 with
          | none => some ("Key `" ++ p.1 ++ "` was not found in checkpoint.")
          | some v =>
            if canCopy p.2 v then none
            else some ("Key `" ++ p.1 ++ "` from checkpoint could not be loaded into model."))
          = self_state_dict.filterMap (fun p =>
              match sd.lookup p.1 with
              | none => some ("Key `" ++ p.1 ++ "` was not found in checkpoint.")
              | some v =>
                if canCopy p.2 v then none
                else some ("Key `" ++ p.1 ++ "` from checkpoint could not be loaded into model.")) := by
        apply List.filterMap_congr
        intro p hp
        have hq : (self_state_dict.lookup p.1).isSome = true :=
          lookup_isSome_of_mem p.1 p.2 self_state_dict hp
        rw [lookup_filter_self self_state_dict p.1 hq sd]
      rw [hmap, hwarn]
      rfl
    refine ⟨⟨?_, ?_⟩, ?_⟩
    · rintro ⟨e, he⟩
      rw [hok] at he
      cases he
    · intro h
      cases h
    · intro sd2 hsd2
      cases hsd2
      exact hok

/-- Concrete instantiation of C5's success clause: checkpoint with one
matching key `"w"` (copied), one extra key `"extra"` (warned, skipped);
model with the matching `"w"` and an unmatched `"b"` (warned, left at its
initialized value). -/
theorem c5_load_checkpoint_witness :
    load_checkpoint (fun a b => a.shape == b.shape)
        [("state_dict", [("w", ⟨[2], 5⟩), ("extra", ⟨[1], 0⟩)])]
        [("w", ⟨[2], 1⟩), ("b", ⟨[3], 2⟩)]
      = .ok ([("w", ⟨[2], 1⟩), ("b", ⟨[3], 2⟩)].map
              (specTransfer (fun a b => a.shape == b.shape)
                [("w", ⟨[2], 5⟩), ("extra", ⟨[1], 0⟩)]),
             specWarnings (fun a b => a.shape == b.shape)
               [("w", ⟨[2], 5⟩), ("extra", ⟨[1], 0⟩)]
               [("w", ⟨[2], 1⟩), ("b", ⟨[3], 2⟩)]) :=
  (c5_load_checkpoint (fun a b => a.shape == b.shape)
      [("state_dict", [("w", ⟨[2], 5⟩), ("extra", ⟨[1], 0⟩)])]
      [("w", ⟨[2], 1⟩), ("b", ⟨[3], 2⟩)]).2
    [("w", ⟨[2], 5⟩), ("extra", ⟨[1], 0⟩)] rfl

/-! ## C1: the liveness invariant of the forward pass -/

instance (g : Graph) (outputs : List String) : Decidable (claimedLiveness g outputs) := by
  unfold claimedLiveness
  infer_instance

/-- Every cache entry surviving an eviction scan satisfies the keep
predicate. -/
theorem forwardAux_liveness (g : Graph) (outputs : List String) :
    ∀ (steps : List TravStep) (cache : List String) (e : ForwardStep),
      e ∈ forwardAux g outputs steps cache → e.deps ≠ [] →
      ∀ k ∈ e.cache, k ∈ outputs ∨ ∃ m ∈ e.unprocessed, k ∈ depsOf g m := by
  intro steps
  induction steps with
  | nil =>
    intro cache e he
    simp [forwardAux] at he
  | cons s rest ih =>
    intro cache e he hdeps k hk
    rcases List.mem_cons.mp he with he | he
    · subst he
      simp only at hdeps hk
      have hempty : s.deps.isEmpty = false := by
        rcases Bool.eq_false_or_eq_true s.deps.isEmpty with h | h
        · rw [List.isEmpty_iff] at h
          exact absurd h hdeps
        · exact h
      rcases List.mem_filter.mp hk with ⟨_, hkeep⟩
      rw [evictionKeep, hempty] at hkeep
      simp only [Bool.false_and, Bool.or_false, Bool.false_or] at hkeep
      rcases Bool.or_eq_true_iff.mp hkeep with h | h
      · exact Or.inl (of_decide_eq_true h)
      · rcases List.any_eq_true.mp h with ⟨m, hm, hmk⟩
        exact Or.inr ⟨m, hm, of_decide_eq_true hmk⟩
    · exact ih _ e he hdeps k hk

/-- C1 (amended): during a forward pass, after the liveness-eviction step of
every node that has at least one predecessor, the Computed Cache holds only
entries that are declared model outputs or are required as a predecessor by
some still-unprocessed node.  (After the step of a predecessor-less input
node, the scan exempts every entry other than the node's own consumed
pseudo-input, so entries that are already dead can persist until the next
step of a node with predecessors — see the counterexample.) -/
theorem c1_liveness_amended (g : Graph) (outputs : List String) (e : ForwardStep)
    (he : e ∈ forwardTrace g outputs) (hdeps : e.deps ≠ []) :
    ∀ k ∈ e.cache, k ∈ outputs ∨ ∃ m ∈ e.unprocessed, k ∈ depsOf g m :=
  forwardAux_liveness g outputs (traverse_graph g) (initialCache g) e he hdeps

/-- The diamond graph A → {B, C} → D. -/
def diamondGraph : Graph := [("A", []), ("B", ["A"]), ("C", ["A"]), ("D", ["B", "C"])]

/-- Concrete instantiation of C1's amended claim: the trace entry of node B
in the diamond graph. -/
theorem c1_liveness_amended_witness :
    "A" ∈ ["D"]
      ∨ ∃ m ∈ (ForwardStep.mk "B" ["A"] ["C", "D"] ["A", "B"]).unprocessed,
          "A" ∈ depsOf diamondGraph m :=
  c1_liveness_amended diamondGraph ["D"]
    (ForwardStep.mk "B" ["A"] ["C", "D"] ["A", "B"])
    (by decide) (by decide) "A" (by decide)

/-- Two loader-fed input nodes I and J plus K consuming I; J is an input
node that feeds nothing and is not an output. -/
def twoInputGraph : Graph := [("I", []), ("J", []), ("K", ["I"])]

/-- C1 counterexample: in `twoInputGraph` with declared outputs `["K"]`, the
eviction scan run after computing the input node J keeps J's own packet in
the cache even though J is not a declared output, is not an unconsumed
pseudo-input Packet, and is not required by the only still-unprocessed node
K.  The claimed liveness invariant is therefore false on this input. -/
theorem c1_liveness_counterexample : ¬ claimedLiveness twoInputGraph ["K"] := by
  decide

/-! ## Graph traversal lemmas (for C6 and C8) -/

/-- Every traversal step concerns a graph entry not yet processed. -/
theorem kahnAux_mem (g : Graph) :
    ∀ (fuel : Nat) (processed : List String) (s : TravStep),
      s ∈ kahnAux g fuel processed → s.name ∉ processed ∧ (s.name, s.deps) ∈ g := by
  intro fuel
  induction fuel with
  | zero => intro processed s hs; simp [kahnAux] at hs
  | succ fuel ih =>
    intro processed s hs
    cases hp : pickNext g processed with
    | none => simp [kahnAux, hp] at hs
    | some p =>
      simp only [kahnAux, hp] at hs
      simp only [pickNext] at hp
      have hpf := List.mem_of_find?_eq_some hp
      rcases List.mem_filter.mp hpf with ⟨hpg, hpp⟩
      have hpnp : p.1 ∉ processed := of_decide_eq_true hpp
      rcases List.mem_cons.mp hs with hs | hs
      · subst hs
        exact ⟨hpnp, hpg⟩
      · have hrec := ih (processed ++ [p.1]) s hs
        exact ⟨fun hmem => hrec.1 (List.mem_append_left _ hmem), hrec.2⟩

/-- The traversal never visits a node twice. -/
theorem kahnAux_names_nodup (g : Graph) :
    ∀ (fuel : Nat) (processed : List String),
      ((kahnAux g fuel processed).map (fun s => s.name)).Nodup := by
  intro fuel
  induction fuel with
  | zero => intro processed; simp [kahnAux]
  | succ fuel ih =>
    intro processed
    cases hp : pickNext g processed with
    | none => simp [kahnAux, hp]
    | some p =>
      simp only [kahnAux, hp, List.map_cons]
      rw [List.nodup_cons]
      refine ⟨?_, ih _⟩
      intro hmem
      rcases List.mem_map.mp hmem with ⟨s, hs, hname⟩
      have hnp := (kahnAux_mem g fuel (processed ++ [p.1]) s hs).1
      exact hnp (by rw [hname]; exact List.mem_append_right _ (List.mem_singleton.mpr rfl))

/-- When the traversal covers the whole graph, every graph key is visited. -/
theorem kahn_complete (g : Graph) (hacyc : is_acyclic g = true) :
    ∀ k, (∃ d, (k, d) ∈ g) → k ∈ kahnOrder g := by
  intro k hk
  have hnodup : (kahnOrder g).Nodup := kahnAux_names_nodup g g.length []
  have hsub : kahnOrder g ⊆ g.map (fun p => p.1) := by
    intro x hx
    rcases List.mem_map.mp hx with ⟨s, hs, hname⟩
    have hmem := (kahnAux_mem g g.length [] s hs).2
    exact List.mem_map.mpr ⟨(s.name, s.deps), hmem, hname⟩
  have hlen : (kahnOrder g).length = (g.map (fun p => p.1)).length := by
    simp only [kahnOrder, List.length_map]
    simp only [is_acyclic] at hacyc
    exact beq_iff_eq.mp hacyc
  have hperm := (List.subperm_of_subset hnodup hsub).perm_of_length_le (le_of_eq hlen.symm)
  rcases hk with ⟨d, hd⟩
  exact hperm.mem_iff.mpr (List.mem_map.mpr ⟨(k, d), hd, rfl⟩)

/-- A set of nodes each of which depends on another node of the set is never
entered by the traversal: none of its members ever becomes ready. -/
theorem kahn_blocked (g : Graph) (hnd : (g.map (fun p => p.1)).Nodup) (c : List String)
    (hc : ∀ x ∈ c, ∃ p ∈ g, p.1 = x ∧ ∃ d ∈ p.2, d ∈ c) :
    ∀ (fuel : Nat) (processed : List String),
      (∀ x ∈ c, x ∉ processed) →
      ∀ x ∈ c, x ∉ (kahnAux g fuel processed).map (fun s => s.name) := by
  intro fuel
  induction fuel with
  | zero => intro processed hdis x hx; simp [kahnAux]
  | succ fuel ih =>
    intro processed hdis x hx
    cases hp : pickNext g processed with
    | none => simp [kahnAux, hp]
    | some p =>
      have hpc : p.1 ∉ c := by
        intro hpc
        rcases hc p.1 hpc with ⟨q, hqg, hq1, d, hdq, hdc⟩
        simp only [pickNext] at hp
        have hready := List.find?_some hp
        have hpf := List.mem_of_find?_eq_some hp
        rcases List.mem_filter.mp hpf with ⟨hpg, _⟩
        have hqp : q = p := List.inj_on_of_nodup_map hnd hqg hpg (by rw [hq1])
        have hdp : d ∈ p.2 := hqp ▸ hdq
        simp only [nodeReady] at hready
        have hd := List.all_eq_true.mp hready d hdp
        have hdnp : d ∉ processed := hdis d hdc
        rcases hc d hdc with ⟨r, hrg, hr1, _⟩
        have hsome : (g.lookup d).isSome = true := by
          have hmem : (d, r.2) ∈ g := by rw [← hr1]; exact hrg
          exact lookup_isSome_of_mem d r.2 g hmem
        rw [Bool.or_eq_true_iff] at hd
        rcases hd with hd | hd
        · exact hdnp (of_decide_eq_true hd)
        · rw [Option.isNone_iff_eq_none] at hd
          rw [hd] at hsome
          cases hsome
      simp only [kahnAux, hp, List.map_cons]
      intro hmem
      rcases List.mem_cons.mp hmem with hmem | hmem
      · exact hpc (hmem ▸ hx)
      · refine ih (processed ++ [p.1]) ?_ x hx hmem
        intro y hy hmy
        rcases List.mem_append.mp hmy with hmy | hmy
        · exact hdis y hy hmy
        · rw [List.mem_singleton] at hmy
          exact hpc (hmy ▸ hy)

/-- Every element of an explicit cycle owns a graph entry one of whose
predecessors lies on the cycle. -/
theorem isCycle_consumed (g : Graph) (c : List String) (hc : IsCycle g c) :
    ∀ x ∈ c, ∃ p ∈ g, p.1 = x ∧ ∃ d ∈ p.2, d ∈ c := by
  intro x hx
  rcases List.mem_iff_get.mp hx with ⟨i, hi⟩
  rcases hc.2 i with ⟨p, hp, hp1, hnext⟩
  exact ⟨p, hp, by rw [hp1, hi], c.get _, hnext, List.get_mem c _ _⟩

/-- A graph containing an explicit cycle fails the acyclicity check. -/
theorem cycle_not_acyclic (g : Graph) (hnd : (g.map (fun p => p.1)).Nodup)
    (c : List String) (hc : IsCycle g c) : is_acyclic g = false := by
  rcases Bool.eq_false_or_eq_true (is_acyclic g) with h | h
  · exfalso
    have hcons := isCycle_consumed g c hc
    obtain ⟨x, hx⟩ : ∃ x, x ∈ c := by
      cases hcl : c with
      | nil => exact absurd hcl hc.1
      | cons a t => exact ⟨a, List.mem_cons_self a t⟩
    rcases hcons x hx with ⟨p, hp, hp1, _⟩
    have hk : x ∈ kahnOrder g := kahn_complete g h x ⟨p.2, by rw [← hp1]; exact hp⟩
    exact kahn_blocked g hnd c hcons g.length []
      (fun y _ hy => (List.not_mem_nil y) hy) x hx hk
  · exact h

/-- The keys of a Python-style dict insertion. -/
theorem dictInsert_keys (g : Graph) (k : String) (v : List String) :
    (dictInsert g k v).map (fun p => p.1)
      = if g.any (fun p => p.1 == k) then g.map (fun p => p.1)
        else g.map (fun p => p.1) ++ [k] := by
  by_cases h : g.any (fun p => p.1 == k) = true
  · rw [dictInsert, if_pos h, if_pos h, List.map_map]
    apply List.map_congr_left
    intro p hp
    simp only [Function.comp]
    by_cases hpk : (p.1 == k) = true
    · rw [if_pos hpk]
      rw [beq_iff_eq] at hpk
      exact hpk.symm
    · rw [if_neg hpk]
  · rw [dictInsert, if_neg h, if_neg h, List.map_append]
    rfl

/-- The graph built by `check_graph`'s dict comprehension has unique keys. -/
theorem toGraph_keys_nodup (nodes : List ModelNodeConfig) :
    ((toGraph nodes).map (fun p => p.1)).Nodup := by
  suffices h : ∀ (ns : List ModelNodeConfig) (acc : Graph), (acc.map (fun p => p.1)).Nodup →
      ((ns.foldl (fun g n => dictInsert g (aliasOrName n) n.inputs) acc).map
        (fun p => p.1)).Nodup by
    exact h nodes [] (by simp)
  intro ns
  induction ns with
  | nil => intro acc hacc; exact hacc
  | cons n rest ih =>
    intro acc hacc
    rw [List.foldl_cons]
    apply ih
    rw [dictInsert_keys]
    by_cases h : acc.any (fun p => p.1 == aliasOrName n) = true
    · rw [if_pos h]; exact hacc
    · rw [if_neg h]
      rw [List.nodup_append]
      refine ⟨hacc, List.nodup_singleton _, ?_⟩
      intro a ha hak
      rw [List.mem_singleton] at hak
      subst hak
      rcases List.mem_map.mp ha with ⟨p, hp, hp1⟩
      exact h (List.any_eq_true.mpr ⟨p, hp, by rw [hp1]; exact beq_self_eq_true _⟩)

/-- Under unique alias-or-names, the dict comprehension is a plain map. -/
theorem toGraph_eq_map (nodes : List ModelNodeConfig)
    (hnd : (nodes.map aliasOrName).Nodup) :
    toGraph nodes = nodes.map fun n => (aliasOrName n, n.inputs) := by
  suffices h : ∀ (ns : List ModelNodeConfig) (acc : Graph),
      (acc.map (fun p => p.1) ++ ns.map aliasOrName).Nodup →
      ns.foldl (fun g n => dictInsert g (aliasOrName n) n.inputs) acc
        = acc ++ ns.map (fun n => (aliasOrName n, n.inputs)) by
    simpa using h nodes [] (by simpa using hnd)
  intro ns
  induction ns with
  | nil => intro acc _; simp
  | cons n rest ih =>
    intro acc hacc
    rw [List.foldl_cons]
    rw [List.map_cons] at hacc
    have hknotin : aliasOrName n ∉ acc.map (fun p => p.1) := by
      intro hmem
      rcases List.nodup_append.mp hacc with ⟨_, _, hdisj⟩
      exact hdisj hmem (List.mem_cons_self _ _)
    have hins : dictInsert acc (aliasOrName n) n.inputs
        = acc ++ [(aliasOrName n, n.inputs)] := by
      rw [dictInsert, if_neg ?_]
      intro hany
      rcases List.any_eq_true.mp hany with ⟨p, hp, hpk⟩
      rw [beq_iff_eq] at hpk
      exact hknotin (List.mem_map.mpr ⟨p, hp, hpk⟩)
    have hrec := ih (acc ++ [(aliasOrName n, n.inputs)])
      (by rw [List.map_append]; simpa [List.append_assoc] using hacc)
    rw [hins, hrec]
    simp [List.append_assoc]

/-! ## C6: graph validation -/

/-- C6: graph validation fails with a configuration error on every graph
containing a cycle and on every non-empty graph whose declared-or-derived
output set is empty; on every graph passing the (spec-modelled) acyclicity
check whose output set is non-empty, it succeeds and returns the output node
names. -/
theorem c6_graph_validation (nodes : List ModelNodeConfig) (outputs : List String) :
    (∀ c, IsCycle (toGraph nodes) c → ∃ e, check_graph nodes outputs = .error e)
    ∧ (nodes ≠ [] → finalOutputs nodes outputs = [] →
        ∃ e, check_graph nodes outputs = .error e)
    ∧ (is_acyclic (toGraph nodes) = true → finalOutputs nodes outputs ≠ [] →
        check_graph nodes outputs = .ok (finalOutputs nodes outputs)) := by
  refine ⟨?_, ?_, ?_⟩
  · intro c hc
    have hfalse : is_acyclic (toGraph nodes) = false :=
      cycle_not_acyclic (toGraph nodes) (toGraph_keys_nodup nodes) c hc
    exact ⟨"Model graph is not acyclic.", by simp [check_graph, hfalse]⟩
  · intro hne hout
    cases hac : is_acyclic (toGraph nodes) with
    | false => exact ⟨"Model graph is not acyclic.", by simp [check_graph, hac]⟩
    | true =>
      have h1 : nodes.isEmpty = false := by
        cases nodes with
        | nil => exact absurd rfl hne
        | cons a t => rfl
      exact ⟨"No outputs specified.", by simp [check_graph, hac, h1, hout]⟩
  · intro hac hout
    have h2 : (finalOutputs nodes outputs).isEmpty = false := by
      cases hfo : finalOutputs nodes outputs with
      | nil => exact absurd hfo hout
      | cons a t => rfl
    simp [check_graph, hac, h2]

instance (g : Graph) (c : List String) : Decidable (IsCycle g c) := by
  unfold IsCycle
  infer_instance

/-- A two-node cyclic model configuration. -/
def cyclicNodes : List ModelNodeConfig :=
  [{ name := "A", inputs := ["B"] }, { name := "B", inputs := ["A"] }]

/-- A two-node acyclic model configuration A → B. -/
def goodNodes : List ModelNodeConfig :=
  [{ name := "A" }, { name := "B", inputs := ["A"] }]

/-- Concrete instantiation of C6: the cyclic configuration is rejected, the
acyclic one succeeds with its derived outputs. -/
theorem c6_graph_validation_witness :
    (∃ e, check_graph cyclicNodes [] = .error e)
    ∧ check_graph goodNodes [] = .ok (finalOutputs goodNodes []) :=
  ⟨(c6_graph_validation cyclicNodes []).1 ["A", "B"] (by decide),
   (c6_graph_validation goodNodes []).2.2 (by decide) (by decide)⟩

/-! ## C8: default-output derivation -/

/-- In a graph passing the acyclicity check, no entry lists its own key as a
predecessor. -/
theorem no_self_dep (g : Graph) (hnd : (g.map (fun p => p.1)).Nodup)
    (hacyc : is_acyclic g = true) : ∀ p ∈ g, p.1 ∉ p.2 := by
  intro p hp hself
  have hcyc : IsCycle g [p.1] := by
    refine ⟨by simp, ?_⟩
    intro i
    rcases i with ⟨iv, hlt⟩
    cases iv with
    | succ m =>
      have hlen : ([p.1]).length = 1 := rfl
      omega
    | zero =>
      refine ⟨p, hp, rfl, ?_⟩
      simpa using hself
  have hfalse := cycle_not_acyclic g hnd [p.1] hcyc
  rw [hacyc] at hfalse
  cases hfalse

/-- C8: when no explicit output list is supplied, successful graph
validation returns exactly the nodes (by alias-or-name) that are not
referenced as a predecessor by any other node, in declaration order. -/
theorem c8_default_output_derivation (nodes : List ModelNodeConfig) (outs : List String)
    (hnd : (nodes.map aliasOrName).Nodup)
    (hok : check_graph nodes [] = .ok outs) :
    outs = specOutputs nodes := by
  cases hac : is_acyclic (toGraph nodes) with
  | false =>
    simp only [check_graph, hac, Bool.not_false, if_true] at hok
    cases hok
  | true =>
    have hout : outs = finalOutputs nodes [] := by
      simp only [check_graph, hac, Bool.not_true, Bool.false_eq_true, if_false] at hok
      by_cases hcond : (!nodes.isEmpty && (finalOutputs nodes []).isEmpty) = true
      · rw [if_pos hcond] at hok; cases hok
      · rw [if_neg hcond] at hok
        cases hok
        rfl
    rw [hout]
    have hfin : finalOutputs nodes [] = derivedOutputs nodes := by
      simp [finalOutputs]
    rw [hfin]
    have hself : ∀ n ∈ nodes, aliasOrName n ∉ n.inputs := by
      intro n hn hmem
      have hps : (aliasOrName n, n.inputs) ∈ toGraph nodes := by
        rw [toGraph_eq_map nodes hnd]
        exact List.mem_map.mpr ⟨n, hn, rfl⟩
      exact no_self_dep (toGraph nodes) (toGraph_keys_nodup nodes) hac
        (aliasOrName n, n.inputs) hps hmem
    simp only [derivedOutputs, specOutputs]
    congr 1
    apply List.filter_congr
    intro n hn
    rw [Bool.eq_iff_iff, decide_eq_true_eq, List.all_eq_true]
    constructor
    · intro hni m hm
      rw [Bool.or_eq_true_iff]
      right
      rw [decide_eq_true_eq]
      intro hmm
      exact hni (List.mem_flatMap.mpr ⟨m, hm, hmm⟩)
    · intro hall hmem
      rcases List.mem_flatMap.mp hmem with ⟨m, hm, hmm⟩
      have hdis := hall m hm
      rw [Bool.or_eq_true_iff] at hdis
      rcases hdis with hbeq | hnin
      · rw [beq_iff_eq] at hbeq
        have hmn : m = n := List.inj_on_of_nodup_map hnd hm hn hbeq
        subst hmn
        exact hself m hm hmm
      · exact (of_decide_eq_true hnin) hmm

/-- Concrete instantiation of C8 on the A → B configuration: the derived
output list is exactly `["B"]`. -/
theorem c8_default_output_derivation_witness : ["B"] = specOutputs goodNodes :=
  c8_default_output_derivation goodNodes ["B"] (by decide) (by rfl)

end LuxonisTrain
